import Mathlib

/-!
Verification of the hooks service
(`src/vs/workbench/contrib/hooks/browser/hooksService.ts` together with the
shared types in `src/vs/workbench/contrib/hooks/common/hooks.ts`).

The TypeScript service is shallowly embedded as pure Lean functions:

* JSON values (the raw configuration objects the service stores and the
  values coming back from the settings service and `JSON.parse`) are the
  inductive `JsonVal`; JavaScript truthiness of a possibly-absent field is
  `jsTruthy`.
* The mutable `Map<HookType, IHookConfiguration[]>` together with the
  JavaScript heap aliasing that the disposal closures rely on is the state
  record `HS`: configuration objects and the arrays held in the map live in
  append-only heaps addressed by natural-number references, so that
  reference identity (`indexOf` in the source) and stale-array aliasing
  (a closure keeping an array that the map no longer mentions) are modelled
  faithfully.
* `executeHooks` is embedded as a pure function parameterised by an
  outcome oracle for the `await this.executeHook(...)` call (the source's
  private `executeHook` is an explicitly-commented simulation stand-in, so
  the engine is verified for every possible outcome of that call: a normal
  result or a throw).  Besides the returned results the embedding records a
  trace of engine actions (execution starts and event publications) so that
  ordering claims about event publication can be stated.
-/

/-- JSON-like values: the configuration objects handled by the service. -/
inductive JsonVal where
  | null
  | bool (b : Bool)
  | num (n : Int)
  | str (s : String)
  | arr (elems : List JsonVal)
  | obj (fields : List (String × JsonVal))

/-- Field access `v.k` on a JavaScript value: defined (some) only on
objects having the field; everything else yields `undefined` (none). -/
def getField : JsonVal → String → Option JsonVal
  | .obj fs, k => (fs.find? (fun p => p.1 == k)).map (fun p => p.2)
  | _, _ => none

/-- JavaScript truthiness of a possibly-undefined value (`none` is
`undefined`). -/
def jsTruthy : Option JsonVal → Bool
  | none => false
  | some .null => false
  | some (.bool b) => b
  | some (.num n) => n != 0
  | some (.str s) => s != ""
  | some (.arr _) => true
  | some (.obj _) => true

/-- `isObject` from `base/common/types.ts`: a non-null object that is not
an array (RegExp/Date do not occur among parsed JSON values). -/
def isObjectJV : JsonVal → Bool
  | .obj _ => true
  | _ => false

/-- The closed `HookType` enumeration from `common/hooks.ts`. -/
inductive HookType where
  | PreCopilotPrompt
  | PreContextAttach
  | PreCommit
  | PrePush
  | PrePull
  | PostCopilotResponse
  | WorkspaceOpen
  | FileSave
deriving DecidableEq

/-- The string values of the `HookType` enum members. -/
def HookType.toKey : HookType → String
  | .PreCopilotPrompt => "pre-copilot-prompt"
  | .PreContextAttach => "pre-context-attach"
  | .PreCommit => "pre-commit"
  | .PrePush => "pre-push"
  | .PrePull => "pre-pull"
  | .PostCopilotResponse => "post-copilot-response"
  | .WorkspaceOpen => "workspace-open"
  | .FileSave => "file-save"

/-- The membership test `Object.values(HookType).includes(hookType)` in
`loadHooksFromConfig`, as a partial inverse of the enum's string values. -/
def HookType.fromString : String → Option HookType
  | "pre-copilot-prompt" => some .PreCopilotPrompt
  | "pre-context-attach" => some .PreContextAttach
  | "pre-commit" => some .PreCommit
  | "pre-push" => some .PrePush
  | "pre-pull" => some .PrePull
  | "post-copilot-response" => some .PostCopilotResponse
  | "workspace-open" => some .WorkspaceOpen
  | "file-save" => some .FileSave
  | _ => none

/-- `IHookResult` from `common/hooks.ts`. -/
structure HookResult where
  exitCode : Int
  stdout : String
  stderr : String
  success : Bool
  executionTime : Nat
deriving DecidableEq

/-- `IHookContext` from `common/hooks.ts` (URIs abstracted to strings,
the open-ended `data` bag kept as a JSON value). -/
structure HookContext where
  hookType : HookType
  workspaceUri : Option String
  fileUri : Option String
  data : JsonVal

/-- `IHookExecutionEvent` from `common/hooks.ts`. -/
structure HookExecutionEvent where
  hookType : HookType
  configuration : JsonVal
  result : HookResult
  context : HookContext

/-- Truthiness of `hook.abortOnFailure` on a raw configuration object. -/
def aofB (c : JsonVal) : Bool := jsTruthy (getField c "abortOnFailure")

/-- Outcome of one `await this.executeHook(hook, context)` call: either a
normal `IHookResult` or a throw.  `elapsed` is the (ghost) wall-clock time
that had passed when the throw happened; the engine never reads it, it
exists only so that specification statements can mention the real elapsed
time. -/
inductive ExecOutcome where
  | ok (r : HookResult)
  | threw (msg : String) (elapsed : Nat)

/-- How `executeHooks` turns the outcome of one hook into the recorded
`IHookResult`: a normal result is kept as is, a throw becomes the
`errorResult` object built in the catch block (note the source hardcodes
`executionTime: 0` there). -/
def translateOutcome : ExecOutcome → HookResult
  | .ok r => r
  | .threw msg _ => { exitCode := -1, stdout := "", stderr := msg, success := false, executionTime := 0 }

/-- Whether the loop in `executeHooks` breaks after this hook: in the try
branch `!result.success && hook.abortOnFailure`, in the catch branch
`hook.abortOnFailure` (the error result is always unsuccessful). -/
def abortAfter (c : JsonVal) (o : ExecOutcome) : Bool :=
  match o with
  | .ok r => !r.success && aofB c
  | .threw _ _ => aofB c

/-- Observable engine actions of one `executeHooks` invocation: the start
of one hook execution (the `executeHook` call) and the firing of one
`onHookExecuted` event, both tagged with the 0-based position of the hook
in the registry list. -/
inductive EngineAction where
  | exec (i : Nat) (cfg : JsonVal)
  | publish (i : Nat) (ev : HookExecutionEvent)

/-- The loop body of `executeHooks` (lines 71-113): walk the list,
translate each outcome, record the result, fire the event, and stop early
when the abort condition holds.  `i` is the position of the current hook. -/
def executeHooksGo (t : HookType) (ctx : HookContext) (o : Nat → ExecOutcome) :
    Nat → List JsonVal → List HookResult × List EngineAction
  | _, [] => ([], [])
  | i, c :: rest =>
    let r := translateOutcome (o i)
    let ev : HookExecutionEvent := ⟨t, c, r, ctx⟩
    if abortAfter c (o i) then
      ([r], [.exec i c, .publish i ev])
    else
      let rec_ := executeHooksGo t ctx o (i + 1) rest
      (r :: rec_.1, .exec i c :: .publish i ev :: rec_.2)

/-- `executeHooks` over the registry list for the event type, returning the
result sequence and the action trace. -/
def executeHooks (t : HookType) (ctx : HookContext) (o : Nat → ExecOutcome)
    (hooks : List JsonVal) : List HookResult × List EngineAction :=
  executeHooksGo t ctx o 0 hooks

/-- The events published during a trace, with their hook positions. -/
def publishedEvents (tr : List EngineAction) : List (Nat × HookExecutionEvent) :=
  tr.filterMap fun a => match a with
  | .publish i e => some (i, e)
  | _ => none

/-- The hook positions whose execution was started during a trace. -/
def execCalls (tr : List EngineAction) : List Nat :=
  tr.filterMap fun a => match a with
  | .exec i _ => some i
  | _ => none

/-! ## The registry state

`HooksService` keeps `_registeredHooks : Map<HookType, IHookConfiguration[]>`.
Object identity and array aliasing matter for the disposal closures, so the
state holds two append-only heaps — one of configuration objects, one of
the arrays the map points to — plus the map itself as an association list
(JavaScript `Map` keeps insertion order).  A reference is an index into the
corresponding heap. -/

/-- Heap reference (index into one of the heaps of `HS`). -/
abbrev Ref := Nat

/-- The mutable state of a `HooksService` instance. -/
structure HS where
  /-- Heap of configuration objects; a registered configuration is a
  reference into this list (reference identity = index equality). -/
  cfgs : List JsonVal
  /-- Heap of the arrays stored in `_registeredHooks`; disposal closures
  keep such a reference even after the map entry is gone. -/
  arrays : List (List Ref)
  /-- `_registeredHooks` itself: event type to array reference. -/
  map : List (HookType × Nat)

/-- The empty service state (fresh `HooksService` before any load). -/
def HS.empty : HS := ⟨[], [], []⟩

/-- `Map.get`: the array reference registered for an event type. -/
def mapGet (m : List (HookType × Nat)) (t : HookType) : Option Nat :=
  (m.find? (fun p => p.1 == t)).map (fun p => p.2)

/-- The list of configuration references currently reachable for an event
type (the array `_registeredHooks.get(hookType)`, or `[]` if absent). -/
def getHooksRefs (s : HS) (t : HookType) : List Ref :=
  match mapGet s.map t with
  | none => []
  | some a => s.arrays.getD a []

/-- The configuration objects for an event type (what `getHooks` exposes,
at value level). -/
def getHooksVals (s : HS) (t : HookType) : List JsonVal :=
  (getHooksRefs s t).map (fun r => s.cfgs.getD r .null)

/-- `hasHooks` (lines 143-146): the array exists and is non-empty. -/
def hasHooks (s : HS) (t : HookType) : Bool :=
  match mapGet s.map t with
  | none => false
  | some a => !(s.arrays.getD a []).isEmpty

/-- The disposal handle returned by `registerHook`: the closure captures
the array (`hooks`) and the configuration object. -/
structure Handle where
  arr : Nat
  cfg : Ref

/-- `registerHook` (lines 46-63) on an already-allocated configuration
reference: get-or-create the array for the type, push the configuration,
return the disposal handle.  (Creating an empty array, putting it in the
map and then pushing is observably the same as installing `[r]`.) -/
def registerHookRef (s : HS) (t : HookType) (r : Ref) : HS × Handle :=
  match mapGet s.map t with
  | some a =>
    ({ s with arrays := s.arrays.set a ((s.arrays.getD a []) ++ [r]) }, ⟨a, r⟩)
  | none =>
    ({ s with arrays := s.arrays ++ [[r]], map := s.map ++ [(t, s.arrays.length)] },
     ⟨s.arrays.length, r⟩)

/-- Allocate a fresh configuration object in the heap (a caller or the
loader constructing a new object). -/
def allocCfg (s : HS) (v : JsonVal) : HS × Ref :=
  ({ s with cfgs := s.cfgs ++ [v] }, s.cfgs.length)

/-- Allocate a freshly parsed configuration object and register it
(`this.registerHook(hookType, hookConfig as IHookConfiguration)`). -/
def registerParsed (s : HS) (t : HookType) (v : JsonVal) : HS :=
  let al := allocCfg s v
  (registerHookRef al.1 t al.2).1

/-- The disposal closure (lines 56-62): look up the captured
configuration in the captured array by identity (`indexOf`); if present,
splice it out of that array; otherwise do nothing. -/
def disposeHandle (s : HS) (h : Handle) : HS :=
  let l := s.arrays.getD h.arr []
  let i := l.findIdx (fun x => x == h.cfg)
  if i < l.length then
    { s with arrays := s.arrays.set h.arr (l.eraseIdx i) }
  else
    s

/-- `clearHooks` (lines 148-151): `Map.delete` of the entry. -/
def clearHooks (s : HS) (t : HookType) : HS :=
  { s with map := s.map.filter (fun p => !(p.1 == t)) }

/-- `Array.isArray(hookConfigs) ? hookConfigs : [hookConfigs]`. -/
def elemsOf : JsonVal → List JsonVal
  | .arr es => es
  | v => [v]

/-- The inner loop of `loadHooksFromConfig`: register every element that
is an object. -/
def regConfigs (t : HookType) : HS → List JsonVal → HS
  | s, [] => s
  | s, c :: rest =>
    regConfigs t (if isObjectJV c then registerParsed s t c else s) rest

/-- The outer loop of `loadHooksFromConfig` over `Object.entries(config.hooks)`:
skip unknown event-type keys, register the configurations of known ones. -/
def regFields : HS → List (String × JsonVal) → HS
  | s, [] => s
  | s, p :: rest =>
    match HookType.fromString p.1 with
    | none => regFields s rest
    | some t => regFields (regConfigs t s (elemsOf p.2)) rest

/-- `loadHooksFromConfig` (lines 175-197): if `config.hooks` is a truthy
object (any object is truthy), clear the whole map and register every
parsed configuration; otherwise return unchanged. -/
def loadHooksFromConfig (s : HS) (config : JsonVal) : HS :=
  match getField config "hooks" with
  | some (.obj fields) => regFields { s with map := [] } fields
  | _ => s

/-- `loadWorkspaceHooks` (lines 153-173).  `settings` is the value of
`configurationService.getValue('hooks')` (`none` = undefined); `file` is
the successfully read and parsed `.vscode/hooks.json` content (`none` =
the read or the parse threw, which is caught and ignored). -/
def loadWorkspaceHooks (s : HS) (settings : Option JsonVal) (file : Option JsonVal) : HS :=
  let s1 := match settings with
    | some c => if jsTruthy (some c) && isObjectJV c then loadHooksFromConfig s c else s
    | none => s
  match file with
  | some parsed => loadHooksFromConfig s1 parsed
  | none => s1

/-- Reference parse of one source: the configuration objects a source
contributes for one event type, in the order `loadHooksFromConfig`
registers them. -/
def parseTypeLists : List (String × JsonVal) → HookType → List JsonVal
  | [], _ => []
  | p :: rest, t =>
    (match HookType.fromString p.1 with
     | some u => if u = t then (elemsOf p.2).filter isObjectJV else []
     | none => []) ++ parseTypeLists rest t

/-- The configurations a whole config value contributes for one event type
(empty when the value has no `hooks` object). -/
def parseHooksLists (config : JsonVal) (t : HookType) : List JsonVal :=
  match getField config "hooks" with
  | some (.obj fields) => parseTypeLists fields t
  | _ => []

/-- Whether a config value has a (truthy) `hooks` object, i.e. whether
`loadHooksFromConfig` does anything with it. -/
def hasHooksObj (config : JsonVal) : Bool :=
  match getField config "hooks" with
  | some (.obj _) => true
  | _ => false

/-- Whether the settings source is acted upon by `loadWorkspaceHooks`. -/
def settingsValid (settings : Option JsonVal) : Bool :=
  match settings with
  | some c => jsTruthy (some c) && isObjectJV c && hasHooksObj c
  | none => false

/-- Whether the workspace-file source is acted upon. -/
def fileValid (file : Option JsonVal) : Bool :=
  match file with
  | some v => hasHooksObj v
  | none => false

/-- Boolean no-duplicates check. -/
def nodupB [BEq α] : List α → Bool
  | [] => true
  | x :: xs => !xs.contains x && nodupB xs

/-- Well-formedness of a service state, maintained by every operation:
map keys are distinct, the array references in the map are distinct and in
bounds, and every configuration reference in a map-reachable array is in
bounds of the configuration heap. -/
def wf (s : HS) : Bool :=
  nodupB (s.map.map (fun p => p.1)) &&
  nodupB (s.map.map (fun p => p.2)) &&
  (s.map.map (fun p => p.2)).all (fun a => a < s.arrays.length) &&
  s.map.all (fun p => (s.arrays.getD p.2 []).all (fun r => r < s.cfgs.length))

/-- `executeHooks` as invoked on the service instance: the engine walks the
registry's current list for the event type (line 66: the array in the map,
or `[]` if absent). -/
def executeHooksS (s : HS) (t : HookType) (ctx : HookContext) (o : Nat → ExecOutcome) :
    List HookResult × List EngineAction :=
  executeHooks t ctx o (getHooksVals s t)

/-! ## Generic list helpers -/

theorem getD_set_self {α : Type} (l : List α) (i : Nat) (x d : α) (h : i < l.length) :
    (l.set i x).getD i d = x := by
  simp [List.getD_eq_getElem?_getD, List.getElem?_set_self', h]

theorem getD_set_ne {α : Type} (l : List α) {i j : Nat} (x d : α) (h : i ≠ j) :
    (l.set i x).getD j d = l.getD j d := by
  simp [List.getD_eq_getElem?_getD, List.getElem?_set_ne h]

theorem getD_append_left {α : Type} (l1 l2 : List α) {i : Nat} (d : α) (h : i < l1.length) :
    (l1 ++ l2).getD i d = l1.getD i d := by
  simp [List.getD_eq_getElem?_getD, List.getElem?_append_left h]

theorem getD_append_len {α : Type} (l1 l2 : List α) (d : α) :
    (l1 ++ l2).getD l1.length d = l2.getD 0 d := by
  simp [List.getD_eq_getElem?_getD, List.getElem?_append_right (Nat.le_refl _)]

theorem set_getD_self {α : Type} (l : List α) (a : Nat) (d : α) :
    l.set a (l.getD a d) = l := by
  induction l generalizing a with
  | nil => rfl
  | cons x xs ih =>
    cases a with
    | zero => rfl
    | succ a => simpa using ih a

theorem eraseIdx_findIdx_eq_erase {α : Type} [BEq α] [LawfulBEq α] (l : List α) (a : α) :
    l.eraseIdx (l.findIdx (fun x => x == a)) = l.erase a := by
  induction l with
  | nil => rfl
  | cons x xs ih =>
    by_cases hx : (x == a) = true
    · simp [List.findIdx_cons, hx, List.erase_cons]
    · simp only [List.findIdx_cons, hx, cond_false, List.eraseIdx, List.erase_cons,
        if_neg hx]
      exact congrArg (x :: ·) ih

theorem nodupB_map_inj {α β : Type} [BEq β] [LawfulBEq β] (f : α → β) (m : List α)
    (h : nodupB (m.map f) = true) {p q : α} (hp : p ∈ m) (hq : q ∈ m) (hf : f p = f q) :
    p = q := by
  induction m with
  | nil => cases hp
  | cons y ys ih =>
    simp only [List.map_cons, nodupB, Bool.and_eq_true, Bool.not_eq_true'] at h
    obtain ⟨hc, hn⟩ := h
    have hnotin : f y ∉ ys.map f := by simpa using hc
    rcases List.mem_cons.mp hp with hpy | hpys <;>
      rcases List.mem_cons.mp hq with hqy | hqys
    · exact hpy.trans hqy.symm
    · exact absurd (hpy ▸ hf ▸ List.mem_map_of_mem f hqys) hnotin
    · exact absurd (hqy ▸ hf.symm ▸ List.mem_map_of_mem f hpys) hnotin
    · exact ih hn hpys hqys

theorem nodupB_append_singleton {α : Type} [BEq α] [LawfulBEq α] {l : List α} {x : α}
    (h : nodupB l = true) (hx : x ∉ l) : nodupB (l ++ [x]) = true := by
  induction l with
  | nil => simp [nodupB]
  | cons y ys ih =>
    simp only [nodupB, Bool.and_eq_true, Bool.not_eq_true'] at h
    obtain ⟨hc, hn⟩ := h
    have hyys : y ∉ ys := by simpa using hc
    have hx' : x ∉ ys := fun hm => hx (List.mem_cons_of_mem y hm)
    have hxy : ¬ (y = x) := fun he => hx (he ▸ List.mem_cons_self y ys)
    simp only [List.cons_append, nodupB, Bool.and_eq_true, Bool.not_eq_true']
    constructor
    · simp [List.mem_append, hyys, hxy]
    · exact ih hn hx'

/-! ## Map (association list) helpers -/

theorem mapGet_cons (k : HookType) (v : Nat) (m : List (HookType × Nat)) (t : HookType) :
    mapGet ((k, v) :: m) t = if k = t then some v else mapGet m t := by
  by_cases h : k = t
  · simp [mapGet, List.find?, h]
  · simp only [mapGet, List.find?]
    have : ((k, v).1 == t) = false := by simpa using h
    simp [this, h, mapGet]

theorem mapGet_append_other {m : List (HookType × Nat)} {t t' : HookType} (a : Nat)
    (h : ¬ t = t') : mapGet (m ++ [(t, a)]) t' = mapGet m t' := by
  induction m with
  | nil => simp [mapGet_cons, h]
  | cons p m ih =>
    obtain ⟨k, v⟩ := p
    by_cases hk : k = t'
    · simp [List.cons_append, mapGet_cons, hk]
    · simp [List.cons_append, mapGet_cons, hk, ih]

theorem mapGet_append_self {m : List (HookType × Nat)} {t : HookType} (a : Nat)
    (h : mapGet m t = none) : mapGet (m ++ [(t, a)]) t = some a := by
  induction m with
  | nil => simp [mapGet_cons]
  | cons p m ih =>
    obtain ⟨k, v⟩ := p
    by_cases hk : k = t
    · rw [mapGet_cons, if_pos hk] at h; cases h
    · rw [mapGet_cons, if_neg hk] at h
      simp [List.cons_append, mapGet_cons, hk, ih h]

theorem mapGet_filter_self (m : List (HookType × Nat)) (t : HookType) :
    mapGet (m.filter (fun p => !(p.1 == t))) t = none := by
  induction m with
  | nil => rfl
  | cons p m ih =>
    obtain ⟨k, v⟩ := p
    by_cases hk : k = t
    · simpa [List.filter, hk] using ih
    · have : (!((k, v).1 == t)) = true := by simpa using hk
      simp only [List.filter_cons, this, if_pos trivial]
      rw [mapGet_cons, if_neg hk]
      exact ih

theorem mapGet_filter_ne (m : List (HookType × Nat)) {t t' : HookType} (h : ¬ t = t') :
    mapGet (m.filter (fun p => !(p.1 == t))) t' = mapGet m t' := by
  induction m with
  | nil => rfl
  | cons p m ih =>
    obtain ⟨k, v⟩ := p
    by_cases hk : k = t
    · have hf : (!((k, v).1 == t)) = false := by simpa using hk
      have hk' : ¬ k = t' := fun he => h (hk ▸ he ▸ rfl)
      simp only [List.filter_cons, hf, Bool.false_eq_true, if_false]
      rw [ih, mapGet_cons, if_neg hk']
    · have hf : (!((k, v).1 == t)) = true := by simpa using hk
      simp only [List.filter_cons, hf, if_pos trivial]
      rw [mapGet_cons, mapGet_cons, ih]

theorem mapGet_mem {m : List (HookType × Nat)} {t : HookType} {a : Nat}
    (h : mapGet m t = some a) : (t, a) ∈ m := by
  simp only [mapGet, Option.map_eq_some'] at h
  obtain ⟨q, hq, hqa⟩ := h
  have hmem := List.mem_of_find?_eq_some hq
  have hkey := List.find?_some hq
  have hq1 : q.1 = t := by simpa using hkey
  have : q = (t, a) := by
    obtain ⟨k, v⟩ := q
    simp only at hqa hq1
    simp [hq1, hqa]
  exact this ▸ hmem

theorem mapGet_none_not_mem {m : List (HookType × Nat)} {t : HookType}
    (h : mapGet m t = none) : ∀ p ∈ m, ¬ (p.1 = t) := by
  intro p hp
  simp only [mapGet, Option.map_eq_none'] at h
  have := List.find?_eq_none.mp h p hp
  simpa using this

/-! ## Well-formedness and the effect of one registration -/

theorem wf_iff {s : HS} : wf s = true ↔
    (nodupB (s.map.map (fun p => p.1)) = true ∧
     nodupB (s.map.map (fun p => p.2)) = true ∧
     (∀ p ∈ s.map, p.2 < s.arrays.length) ∧
     (∀ p ∈ s.map, ∀ r ∈ s.arrays.getD p.2 [], r < s.cfgs.length)) := by
  simp only [wf, Bool.and_eq_true, List.all_eq_true, decide_eq_true_eq, List.mem_map]
  constructor
  · rintro ⟨⟨⟨h1, h2⟩, h3⟩, h4⟩
    exact ⟨h1, h2, fun p hp => h3 _ ⟨p, hp, rfl⟩, h4⟩
  · rintro ⟨h1, h2, h3, h4⟩
    refine ⟨⟨⟨h1, h2⟩, ?_⟩, h4⟩
    rintro a ⟨p, hp, rfl⟩
    exact h3 p hp

theorem wf_cfgs_extend {s : HS} (v : JsonVal) (h : wf s = true) :
    wf { s with cfgs := s.cfgs ++ [v] } = true := by
  rw [wf_iff] at h ⊢
  obtain ⟨h1, h2, h3, h4⟩ := h
  refine ⟨h1, h2, h3, ?_⟩
  intro p hp r hr
  have := h4 p hp r hr
  show r < (s.cfgs ++ [v]).length
  rw [List.length_append]
  exact Nat.lt_of_lt_of_le this (Nat.le_add_right _ _)

theorem registerHookRef_cfgs (s : HS) (t : HookType) (r : Ref) :
    (registerHookRef s t r).1.cfgs = s.cfgs := by
  unfold registerHookRef
  cases mapGet s.map t <;> rfl

theorem getHooksRefs_register_self (s : HS) (t : HookType) (r : Ref) (hwf : wf s = true) :
    getHooksRefs (registerHookRef s t r).1 t = getHooksRefs s t ++ [r] := by
  obtain ⟨-, -, h3, -⟩ := wf_iff.mp hwf
  unfold registerHookRef
  cases hm : mapGet s.map t with
  | some a =>
    have ha : a < s.arrays.length := h3 _ (mapGet_mem hm)
    simp only [getHooksRefs, hm]
    rw [getD_set_self _ _ _ _ (by simpa using ha)]
  | none =>
    simp only [getHooksRefs, mapGet_append_self _ hm, hm]
    rw [getD_append_len]
    rfl

theorem registerHookRef_state_some {s : HS} {t : HookType} {r : Ref} {a : Nat}
    (hm : mapGet s.map t = some a) :
    (registerHookRef s t r).1 =
      { s with arrays := s.arrays.set a (s.arrays.getD a [] ++ [r]) } := by
  unfold registerHookRef
  rw [hm]

theorem registerHookRef_state_none {s : HS} {t : HookType} {r : Ref}
    (hm : mapGet s.map t = none) :
    (registerHookRef s t r).1 =
      { s with arrays := s.arrays ++ [[r]], map := s.map ++ [(t, s.arrays.length)] } := by
  unfold registerHookRef
  rw [hm]

theorem getHooksRefs_register_other (s : HS) {t t' : HookType} (r : Ref) (hwf : wf s = true)
    (hne : ¬ t = t') : getHooksRefs (registerHookRef s t r).1 t' = getHooksRefs s t' := by
  obtain ⟨-, h2, h3, -⟩ := wf_iff.mp hwf
  cases hm : mapGet s.map t with
  | some a =>
    rw [registerHookRef_state_some hm]
    cases hm' : mapGet s.map t' with
    | none => simp [getHooksRefs, hm']
    | some a' =>
      have hmem := mapGet_mem hm
      have hmem' := mapGet_mem hm'
      have hne' : a ≠ a' := by
        intro he
        have := nodupB_map_inj (fun p => p.2) s.map h2 hmem hmem' (by simpa using he)
        exact hne (by simpa using congrArg Prod.fst this)
      simp only [getHooksRefs, hm']
      rw [getD_set_ne _ _ _ hne']
  | none =>
    rw [registerHookRef_state_none hm]
    cases hm' : mapGet s.map t' with
    | none =>
      simp only [getHooksRefs, mapGet_append_other _ hne, hm']
    | some a' =>
      have ha' : a' < s.arrays.length := h3 _ (mapGet_mem hm')
      simp only [getHooksRefs, mapGet_append_other _ hne, hm']
      rw [getD_append_left _ _ _ ha']

theorem wf_registerHookRef (s : HS) (t : HookType) (r : Ref) (hwf : wf s = true)
    (hr : r < s.cfgs.length) : wf (registerHookRef s t r).1 = true := by
  obtain ⟨h1, h2, h3, h4⟩ := wf_iff.mp hwf
  rw [wf_iff]
  unfold registerHookRef
  cases hm : mapGet s.map t with
  | some a =>
    have ha : a < s.arrays.length := h3 _ (mapGet_mem hm)
    refine ⟨h1, h2, ?_, ?_⟩
    · intro p hp
      simpa using h3 p hp
    · intro p hp r' hr'
      by_cases hpa : p.2 = a
      · rw [hpa, getD_set_self _ _ _ _ (by simpa using ha)] at hr'
        rcases List.mem_append.mp hr' with hin | hin
        · exact h4 p hp r' (by rw [hpa]; exact hin)
        · simp only [List.mem_singleton] at hin
          exact hin ▸ hr
      · rw [getD_set_ne _ _ _ (fun he => hpa he.symm)] at hr'
        exact h4 p hp r' hr'
  | none =>
    have hnot := mapGet_none_not_mem hm
    refine ⟨?_, ?_, ?_, ?_⟩
    · simp only [List.map_append, List.map_cons, List.map_nil]
      refine nodupB_append_singleton h1 ?_
      intro hmem
      obtain ⟨p, hp, hpt⟩ := List.mem_map.mp hmem
      exact hnot p hp hpt
    · simp only [List.map_append, List.map_cons, List.map_nil]
      refine nodupB_append_singleton h2 ?_
      intro hmem
      obtain ⟨p, hp, hpa⟩ := List.mem_map.mp hmem
      have := h3 p hp
      omega
    · intro p hp
      rcases List.mem_append.mp hp with hin | hin
      · have := h3 p hin
        simp only [List.length_append, List.length_cons, List.length_nil]
        omega
      · simp only [List.mem_singleton] at hin
        subst hin
        simp
    · intro p hp r' hr'
      rcases List.mem_append.mp hp with hin | hin
      · have hplen := h3 p hin
        rw [getD_append_left _ _ _ hplen] at hr'
        exact h4 p hin r' hr'
      · simp only [List.mem_singleton] at hin
        subst hin
        simp only [getD_append_len] at hr'
        simp only [List.getD_cons_zero] at hr'
        simp only [List.mem_singleton] at hr'
        exact hr' ▸ hr

/-! ## Value-level effect of `registerHook` and of the loader -/

theorem getHooksRefs_eq (s : HS) (t : HookType) {a : Nat} (h : mapGet s.map t = some a) :
    getHooksRefs s t = s.arrays.getD a [] := by
  simp [getHooksRefs, h]

theorem getHooksRefs_none (s : HS) (t : HookType) (h : mapGet s.map t = none) :
    getHooksRefs s t = [] := by
  simp [getHooksRefs, h]

theorem payload_append_stable {s : HS} (v : JsonVal) (hwf : wf s = true) :
    ∀ u : HookType, ∀ r ∈ getHooksRefs s u,
      (s.cfgs ++ [v]).getD r .null = s.cfgs.getD r .null := by
  obtain ⟨-, -, -, h4⟩ := wf_iff.mp hwf
  intro u r hr
  cases hm : mapGet s.map u with
  | none => rw [getHooksRefs_none s u hm] at hr; cases hr
  | some a =>
    rw [getHooksRefs_eq s u hm] at hr
    exact getD_append_left _ _ _ (h4 _ (mapGet_mem hm) r hr)

theorem getHooksVals_registerParsed (s : HS) (t t' : HookType) (v : JsonVal)
    (hwf : wf s = true) :
    getHooksVals (registerParsed s t v) t' =
      getHooksVals s t' ++ (if t' = t then [v] else []) := by
  have hwf1 : wf ({ s with cfgs := s.cfgs ++ [v] } : HS) = true := wf_cfgs_extend v hwf
  have hrefs1 : ∀ u, getHooksRefs ({ s with cfgs := s.cfgs ++ [v] } : HS) u = getHooksRefs s u :=
    fun u => rfl
  unfold registerParsed allocCfg
  rw [getHooksVals, registerHookRef_cfgs]
  by_cases he : t' = t
  · subst he
    rw [getHooksRefs_register_self _ t' s.cfgs.length hwf1, hrefs1 t', List.map_append]
    simp only [if_pos rfl]
    congr 1
    · exact (List.map_congr_left (payload_append_stable v hwf t')).trans rfl
    · simp only [List.map_cons, List.map_nil]
      rw [getD_append_len]
      rfl
  · rw [getHooksRefs_register_other _ s.cfgs.length hwf1 (fun hx => he hx.symm), hrefs1 t']
    simp only [if_neg he, List.append_nil]
    exact List.map_congr_left (payload_append_stable v hwf t')

theorem wf_registerParsed (s : HS) (t : HookType) (v : JsonVal) (hwf : wf s = true) :
    wf (registerParsed s t v) = true := by
  unfold registerParsed allocCfg
  refine wf_registerHookRef _ t _ (wf_cfgs_extend v hwf) ?_
  show s.cfgs.length < (s.cfgs ++ [v]).length
  rw [List.length_append]
  simp

theorem getHooksVals_mapClear (s : HS) (t : HookType) :
    getHooksVals { s with map := ([] : List (HookType × Nat)) } t = [] := rfl

theorem wf_mapClear (s : HS) : wf { s with map := ([] : List (HookType × Nat)) } = true := by
  rw [wf_iff]
  refine ⟨rfl, rfl, ?_, ?_⟩ <;> intro p hp <;> cases hp

theorem regConfigs_char (t : HookType) (cs : List JsonVal) :
    ∀ s : HS, wf s = true →
      wf (regConfigs t s cs) = true ∧
      ∀ t' : HookType, getHooksVals (regConfigs t s cs) t' =
        getHooksVals s t' ++ (if t' = t then cs.filter isObjectJV else []) := by
  induction cs with
  | nil =>
    intro s hwf
    refine ⟨hwf, fun t' => ?_⟩
    simp [regConfigs]
  | cons c rest ih =>
    intro s hwf
    by_cases hc : isObjectJV c = true
    · have hwf' := wf_registerParsed s t c hwf
      obtain ⟨hw, hv⟩ := ih (registerParsed s t c) hwf'
      have hstep : regConfigs t s (c :: rest) = regConfigs t (registerParsed s t c) rest := by
        simp [regConfigs, hc]
      refine ⟨by rw [hstep]; exact hw, fun t' => ?_⟩
      rw [hstep, hv t', getHooksVals_registerParsed s t t' c hwf]
      by_cases he : t' = t
      · simp [he, List.filter_cons, hc, List.append_assoc]
      · simp [he]
    · have hc' : isObjectJV c = false := by simpa using hc
      obtain ⟨hw, hv⟩ := ih s hwf
      have hstep : regConfigs t s (c :: rest) = regConfigs t s rest := by
        simp [regConfigs, hc']
      refine ⟨by rw [hstep]; exact hw, fun t' => ?_⟩
      rw [hstep, hv t']
      simp [List.filter_cons, hc']

theorem regFields_char (fields : List (String × JsonVal)) :
    ∀ s : HS, wf s = true →
      wf (regFields s fields) = true ∧
      ∀ t : HookType, getHooksVals (regFields s fields) t =
        getHooksVals s t ++ parseTypeLists fields t := by
  induction fields with
  | nil =>
    intro s hwf
    exact ⟨hwf, fun t => by simp [regFields, parseTypeLists]⟩
  | cons p rest ih =>
    intro s hwf
    cases hp : HookType.fromString p.1 with
    | none =>
      obtain ⟨hw, hv⟩ := ih s hwf
      have hstep : regFields s (p :: rest) = regFields s rest := by
        simp [regFields, hp]
      refine ⟨by rw [hstep]; exact hw, fun t => ?_⟩
      rw [hstep, hv t]
      simp [parseTypeLists, hp]
    | some u =>
      obtain ⟨hwu, hvu⟩ := regConfigs_char u (elemsOf p.2) s hwf
      obtain ⟨hw, hv⟩ := ih (regConfigs u s (elemsOf p.2)) hwu
      have hstep : regFields s (p :: rest) = regFields (regConfigs u s (elemsOf p.2)) rest := by
        simp [regFields, hp]
      refine ⟨by rw [hstep]; exact hw, fun t => ?_⟩
      rw [hstep, hv t, hvu t, List.append_assoc]
      congr 1
      simp only [parseTypeLists, hp]
      by_cases he : u = t
      · simp [he]
      · have he2 : ¬ t = u := fun hx => he hx.symm
        simp [he, he2]

theorem loadHooksFromConfig_char (s : HS) (config : JsonVal) (hwf : wf s = true) :
    wf (loadHooksFromConfig s config) = true ∧
    ∀ t, getHooksVals (loadHooksFromConfig s config) t =
      if hasHooksObj config then parseHooksLists config t else getHooksVals s t := by
  cases hf : getField config "hooks" with
  | none =>
    refine ⟨by simpa [loadHooksFromConfig, hf] using hwf,
      fun t => by simp [loadHooksFromConfig, hasHooksObj, hf]⟩
  | some v =>
    cases v with
    | obj fields =>
      obtain ⟨hw, hv⟩ := regFields_char fields { s with map := [] } (wf_mapClear s)
      have hstep : loadHooksFromConfig s config = regFields { s with map := [] } fields := by
        simp [loadHooksFromConfig, hf]
      refine ⟨by rw [hstep]; exact hw, fun t => ?_⟩
      rw [hstep, hv t, getHooksVals_mapClear]
      simp [hasHooksObj, parseHooksLists, hf]
    | null =>
      refine ⟨by simpa [loadHooksFromConfig, hf] using hwf,
        fun t => by simp [loadHooksFromConfig, hasHooksObj, hf]⟩
    | bool b =>
      refine ⟨by simpa [loadHooksFromConfig, hf] using hwf,
        fun t => by simp [loadHooksFromConfig, hasHooksObj, hf]⟩
    | num n =>
      refine ⟨by simpa [loadHooksFromConfig, hf] using hwf,
        fun t => by simp [loadHooksFromConfig, hasHooksObj, hf]⟩
    | str sv =>
      refine ⟨by simpa [loadHooksFromConfig, hf] using hwf,
        fun t => by simp [loadHooksFromConfig, hasHooksObj, hf]⟩
    | arr es =>
      refine ⟨by simpa [loadHooksFromConfig, hf] using hwf,
        fun t => by simp [loadHooksFromConfig, hasHooksObj, hf]⟩

theorem loadWorkspaceHooks_char (s : HS) (settings file : Option JsonVal) (hwf : wf s = true) :
    wf (loadWorkspaceHooks s settings file) = true ∧
    ∀ t, getHooksVals (loadWorkspaceHooks s settings file) t =
      if fileValid file then parseHooksLists (file.getD .null) t
      else if settingsValid settings then parseHooksLists (settings.getD .null) t
      else getHooksVals s t := by
  have hsettings :
      wf (match settings with
        | some c => if jsTruthy (some c) && isObjectJV c then loadHooksFromConfig s c else s
        | none => s) = true ∧
      ∀ t, getHooksVals (match settings with
        | some c => if jsTruthy (some c) && isObjectJV c then loadHooksFromConfig s c else s
        | none => s) t =
        if settingsValid settings then parseHooksLists (settings.getD .null) t
        else getHooksVals s t := by
    cases settings with
    | none => exact ⟨hwf, fun t => by simp [settingsValid]⟩
    | some c =>
      by_cases hg : (jsTruthy (some c) && isObjectJV c) = true
      · obtain ⟨hw, hv⟩ := loadHooksFromConfig_char s c hwf
        refine ⟨by simpa [hg] using hw, fun t => ?_⟩
        have hval : settingsValid (some c) = hasHooksObj c := by
          simp [settingsValid, Bool.and_eq_true] at hg ⊢
          simp [hg.1, hg.2]
        simp only [hg, if_true, Option.getD]
        rw [hv t, hval]
      · have hg' : (jsTruthy (some c) && isObjectJV c) = false := by simpa using hg
        have hval : settingsValid (some c) = false := by
          simp only [settingsValid]
          rcases Bool.and_eq_false_iff.mp hg' with h | h <;> simp [h]
        refine ⟨by simpa [hg'] using hwf, fun t => ?_⟩
        simp [hg', hval]
  obtain ⟨hw1, hv1⟩ := hsettings
  cases file with
  | none =>
    refine ⟨by simpa [loadWorkspaceHooks] using hw1, fun t => ?_⟩
    have : fileValid none = false := rfl
    simp only [loadWorkspaceHooks, this, Bool.false_eq_true, if_false]
    exact hv1 t
  | some v =>
    obtain ⟨hw2, hv2⟩ := loadHooksFromConfig_char _ v hw1
    refine ⟨by simpa [loadWorkspaceHooks] using hw2, fun t => ?_⟩
    have hvstep : getHooksVals (loadWorkspaceHooks s (settings) (some v)) t =
        if hasHooksObj v then parseHooksLists v t
        else if settingsValid settings then parseHooksLists (settings.getD .null) t
        else getHooksVals s t := by
      simp only [loadWorkspaceHooks]
      rw [hv2 t]
      by_cases hh : hasHooksObj v = true
      · simp [hh]
      · have hh' : hasHooksObj v = false := by simpa using hh
        simp only [hh', Bool.false_eq_true, if_false]
        exact hv1 t
    rw [hvstep]
    have : fileValid (some v) = hasHooksObj v := rfl
    simp [this]

/-! ## Characterization of the execution engine -/

theorem executeHooksGo_results (t : HookType) (ctx : HookContext) (o : Nat → ExecOutcome) :
    ∀ (hooks : List JsonVal) (i0 j : Nat),
      j < (executeHooksGo t ctx o i0 hooks).1.length →
      (executeHooksGo t ctx o i0 hooks).1[j]? = some (translateOutcome (o (i0 + j))) := by
  intro hooks
  induction hooks with
  | nil => intro i0 j h; simp [executeHooksGo] at h
  | cons c rest ih =>
    intro i0 j hj
    by_cases ha : abortAfter c (o i0) = true
    · simp only [executeHooksGo, ha, if_true] at hj ⊢
      simp only [List.length_cons, List.length_nil] at hj
      have hj0 : j = 0 := by omega
      subst hj0
      simp
    · have ha' : abortAfter c (o i0) = false := by simpa using ha
      simp only [executeHooksGo, ha', Bool.false_eq_true, if_false] at hj ⊢
      cases j with
      | zero => simp
      | succ j' =>
        simp only [List.length_cons] at hj
        have hb : j' < (executeHooksGo t ctx o (i0 + 1) rest).1.length := by omega
        have := ih (i0 + 1) j' hb
        simp only [List.getElem?_cons_succ]
        rw [this, show i0 + 1 + j' = i0 + (j' + 1) from by omega]

theorem executeHooksGo_length_le (t : HookType) (ctx : HookContext) (o : Nat → ExecOutcome) :
    ∀ (hooks : List JsonVal) (i0 : Nat),
      (executeHooksGo t ctx o i0 hooks).1.length ≤ hooks.length := by
  intro hooks
  induction hooks with
  | nil => intro i0; simp [executeHooksGo]
  | cons c rest ih =>
    intro i0
    by_cases ha : abortAfter c (o i0) = true
    · simp only [executeHooksGo, ha, if_true, List.length_cons]
      simp
    · have ha' : abortAfter c (o i0) = false := by simpa using ha
      simp only [executeHooksGo, ha', Bool.false_eq_true, if_false, List.length_cons]
      have := ih (i0 + 1)
      omega

theorem publishedEvents_cons_exec (i : Nat) (c : JsonVal) (tr : List EngineAction) :
    publishedEvents (.exec i c :: tr) = publishedEvents tr := by
  simp [publishedEvents]

theorem publishedEvents_cons_publish (i : Nat) (e : HookExecutionEvent) (tr : List EngineAction) :
    publishedEvents (.publish i e :: tr) = (i, e) :: publishedEvents tr := by
  simp [publishedEvents]

theorem execCalls_cons_exec (i : Nat) (c : JsonVal) (tr : List EngineAction) :
    execCalls (.exec i c :: tr) = i :: execCalls tr := by
  simp [execCalls]

theorem execCalls_cons_publish (i : Nat) (e : HookExecutionEvent) (tr : List EngineAction) :
    execCalls (.publish i e :: tr) = execCalls tr := by
  simp [execCalls]

theorem executeHooksGo_published (t : HookType) (ctx : HookContext) (o : Nat → ExecOutcome) :
    ∀ (hooks : List JsonVal) (i0 : Nat),
      publishedEvents (executeHooksGo t ctx o i0 hooks).2 =
        (List.range (executeHooksGo t ctx o i0 hooks).1.length).map
          (fun j => (i0 + j,
            (⟨t, hooks.getD j .null, translateOutcome (o (i0 + j)), ctx⟩ : HookExecutionEvent))) := by
  intro hooks
  induction hooks with
  | nil => intro i0; simp [executeHooksGo, publishedEvents]
  | cons c rest ih =>
    intro i0
    by_cases ha : abortAfter c (o i0) = true
    · simp only [executeHooksGo, ha, if_true]
      simp [publishedEvents, List.range_succ_eq_map]
    · have ha' : abortAfter c (o i0) = false := by simpa using ha
      simp only [executeHooksGo, ha', Bool.false_eq_true, if_false]
      rw [publishedEvents_cons_exec, publishedEvents_cons_publish, ih (i0 + 1)]
      simp only [List.length_cons, List.range_succ_eq_map, List.map_cons, List.map_map]
      refine congrArg₂ List.cons (by simp) ?_
      apply List.map_congr_left
      intro j hj
      have hidx : i0 + Nat.succ j = i0 + 1 + j := by omega
      simp only [Function.comp, List.getD_cons_succ, hidx]

theorem executeHooksGo_execCalls (t : HookType) (ctx : HookContext) (o : Nat → ExecOutcome) :
    ∀ (hooks : List JsonVal) (i0 : Nat),
      execCalls (executeHooksGo t ctx o i0 hooks).2 =
        (List.range (executeHooksGo t ctx o i0 hooks).1.length).map (fun j => i0 + j) := by
  intro hooks
  induction hooks with
  | nil => intro i0; simp [executeHooksGo, execCalls]
  | cons c rest ih =>
    intro i0
    by_cases ha : abortAfter c (o i0) = true
    · simp only [executeHooksGo, ha, if_true]
      simp [execCalls, List.range_succ_eq_map]
    · have ha' : abortAfter c (o i0) = false := by simpa using ha
      simp only [executeHooksGo, ha', Bool.false_eq_true, if_false]
      rw [execCalls_cons_exec, execCalls_cons_publish, ih (i0 + 1)]
      simp only [List.length_cons, List.range_succ_eq_map, List.map_cons, List.map_map]
      refine congrArg₂ List.cons (by simp) ?_
      apply List.map_congr_left
      intro j hj
      have hidx : i0 + Nat.succ j = i0 + 1 + j := by omega
      simp only [Function.comp, hidx]

theorem executeHooksGo_abort_len (t : HookType) (ctx : HookContext) (o : Nat → ExecOutcome) :
    ∀ (hooks : List JsonVal) (i0 i : Nat),
      i < hooks.length →
      (∀ j, j < i → abortAfter (hooks.getD j .null) (o (i0 + j)) = false) →
      abortAfter (hooks.getD i .null) (o (i0 + i)) = true →
      (executeHooksGo t ctx o i0 hooks).1.length = i + 1 := by
  intro hooks
  induction hooks with
  | nil => intro i0 i h _ _; simp at h
  | cons c rest ih =>
    intro i0 i hi hpre habort
    cases i with
    | zero =>
      have ha : abortAfter c (o i0) = true := by simpa using habort
      simp [executeHooksGo, ha]
    | succ i' =>
      have h0 : abortAfter c (o i0) = false := by simpa using hpre 0 (Nat.succ_pos i')
      have hpre' : ∀ j, j < i' → abortAfter (rest.getD j .null) (o (i0 + 1 + j)) = false := by
        intro j hj
        have := hpre (j + 1) (Nat.succ_lt_succ hj)
        simpa [show i0 + (j + 1) = i0 + 1 + j from by omega] using this
      have habort' : abortAfter (rest.getD i' .null) (o (i0 + 1 + i')) = true := by
        simpa [show i0 + (i' + 1) = i0 + 1 + i' from by omega] using habort
      have hi' : i' < rest.length := by
        simpa using Nat.lt_of_succ_lt_succ hi
      have hlen := ih (i0 + 1) i' hi' hpre' habort'
      simp only [executeHooksGo, h0, Bool.false_eq_true, if_false, List.length_cons]
      omega

theorem executeHooksGo_trace_len (t : HookType) (ctx : HookContext) (o : Nat → ExecOutcome) :
    ∀ (hooks : List JsonVal) (i0 : Nat),
      (executeHooksGo t ctx o i0 hooks).2.length =
        2 * (executeHooksGo t ctx o i0 hooks).1.length := by
  intro hooks
  induction hooks with
  | nil => intro i0; simp [executeHooksGo]
  | cons c rest ih =>
    intro i0
    by_cases ha : abortAfter c (o i0) = true
    · simp [executeHooksGo, ha]
    · have ha' : abortAfter c (o i0) = false := by simpa using ha
      simp only [executeHooksGo, ha', Bool.false_eq_true, if_false,
        List.length_cons]
      have := ih (i0 + 1)
      omega

theorem executeHooksGo_trace_getElem (t : HookType) (ctx : HookContext) (o : Nat → ExecOutcome) :
    ∀ (hooks : List JsonVal) (i0 j : Nat),
      j < (executeHooksGo t ctx o i0 hooks).1.length →
      (executeHooksGo t ctx o i0 hooks).2[2 * j]? =
        some (.exec (i0 + j) (hooks.getD j .null)) ∧
      (executeHooksGo t ctx o i0 hooks).2[2 * j + 1]? =
        some (.publish (i0 + j)
          ⟨t, hooks.getD j .null, translateOutcome (o (i0 + j)), ctx⟩) := by
  intro hooks
  induction hooks with
  | nil => intro i0 j h; simp [executeHooksGo] at h
  | cons c rest ih =>
    intro i0 j hj
    by_cases ha : abortAfter c (o i0) = true
    · simp only [executeHooksGo, ha, if_true] at hj ⊢
      simp only [List.length_cons, List.length_nil] at hj
      have hj0 : j = 0 := by omega
      subst hj0
      simp
    · have ha' : abortAfter c (o i0) = false := by simpa using ha
      simp only [executeHooksGo, ha', Bool.false_eq_true, if_false] at hj ⊢
      cases j with
      | zero => simp
      | succ j' =>
        simp only [List.length_cons] at hj
        have hb : j' < (executeHooksGo t ctx o (i0 + 1) rest).1.length := by omega
        obtain ⟨ihe, ihp⟩ := ih (i0 + 1) j' hb
        have hidx : i0 + 1 + j' = i0 + (j' + 1) := by omega
        constructor
        · rw [show 2 * (j' + 1) = 2 * j' + 1 + 1 from by ring]
          simp only [List.getElem?_cons_succ]
          rw [ihe, hidx]
          rfl
        · rw [show 2 * (j' + 1) + 1 = (2 * j' + 1) + 1 + 1 from by ring]
          simp only [List.getElem?_cons_succ]
          rw [ihp, hidx]
          rfl

/-! ## The disposal closure -/

theorem findIdx_beq_of_not_mem {α : Type} [BEq α] [LawfulBEq α] {l : List α} {a : α}
    (h : a ∉ l) : l.findIdx (fun x => x == a) = l.length := by
  induction l with
  | nil => rfl
  | cons x xs ih =>
    have hxa : (x == a) = false := by
      simp only [beq_eq_false_iff_ne]
      intro he
      exact h (he ▸ List.mem_cons_self x xs)
    have hxs : a ∉ xs := fun hm => h (List.mem_cons_of_mem x hm)
    simp [List.findIdx_cons, hxa, ih hxs]

theorem disposeHandle_eq (s : HS) (h : Handle) :
    disposeHandle s h =
      { s with arrays := s.arrays.set h.arr ((s.arrays.getD h.arr []).erase h.cfg) } := by
  by_cases hmem : h.cfg ∈ s.arrays.getD h.arr []
  · have hlt : (s.arrays.getD h.arr []).findIdx (fun x => x == h.cfg) <
        (s.arrays.getD h.arr []).length :=
      List.findIdx_lt_length_of_exists ⟨h.cfg, hmem, by simp⟩
    simp only [disposeHandle, hlt, if_true]
    rw [eraseIdx_findIdx_eq_erase]
  · have hidx := findIdx_beq_of_not_mem hmem
    simp only [disposeHandle, hidx, Nat.lt_irrefl, if_false]
    rw [List.erase_of_not_mem hmem, set_getD_self]

theorem disposeHandle_map (s : HS) (h : Handle) : (disposeHandle s h).map = s.map := by
  rw [disposeHandle_eq]

theorem disposeHandle_cfgs (s : HS) (h : Handle) : (disposeHandle s h).cfgs = s.cfgs := by
  rw [disposeHandle_eq]

theorem disposeHandle_frame (s : HS) (h : Handle)
    (hstale : ∀ p ∈ s.map, p.2 ≠ h.arr) :
    ∀ t, getHooksRefs (disposeHandle s h) t = getHooksRefs s t ∧
      getHooksVals (disposeHandle s h) t = getHooksVals s t ∧
      hasHooks (disposeHandle s h) t = hasHooks s t := by
  intro t
  have hrefs : getHooksRefs (disposeHandle s h) t = getHooksRefs s t := by
    rw [disposeHandle_eq]
    cases hm : mapGet s.map t with
    | none => simp [getHooksRefs, hm]
    | some a =>
      have ha : a ≠ h.arr := hstale _ (mapGet_mem hm)
      simp only [getHooksRefs, hm]
      exact getD_set_ne _ _ _ (fun he => ha he.symm)
  refine ⟨hrefs, ?_, ?_⟩
  · rw [getHooksVals, getHooksVals, hrefs, disposeHandle_cfgs]
  · rw [disposeHandle_eq]
    cases hm : mapGet s.map t with
    | none => simp [hasHooks, hm]
    | some a =>
      have ha : a ≠ h.arr := hstale _ (mapGet_mem hm)
      simp only [hasHooks, hm]
      rw [getD_set_ne _ _ _ (fun he => ha he.symm)]

theorem registerHookRef_snd_some {s : HS} {t : HookType} {r : Ref} {a : Nat}
    (hm : mapGet s.map t = some a) : (registerHookRef s t r).2 = ⟨a, r⟩ := by
  unfold registerHookRef
  rw [hm]

theorem registerHookRef_snd_none {s : HS} {t : HookType} {r : Ref}
    (hm : mapGet s.map t = none) : (registerHookRef s t r).2 = ⟨s.arrays.length, r⟩ := by
  unfold registerHookRef
  rw [hm]

theorem registerHookRef_handle (s : HS) (t : HookType) (r : Ref) (hwf : wf s = true) :
    mapGet (registerHookRef s t r).1.map t = some (registerHookRef s t r).2.arr ∧
    (registerHookRef s t r).1.arrays.getD (registerHookRef s t r).2.arr [] =
      getHooksRefs s t ++ [r] ∧
    (registerHookRef s t r).2.arr < (registerHookRef s t r).1.arrays.length := by
  obtain ⟨-, -, h3, -⟩ := wf_iff.mp hwf
  cases hm : mapGet s.map t with
  | some a =>
    have ha : a < s.arrays.length := h3 _ (mapGet_mem hm)
    rw [registerHookRef_state_some hm, registerHookRef_snd_some hm]
    refine ⟨hm, ?_, by simpa using ha⟩
    rw [getD_set_self _ _ _ _ (by simpa using ha), getHooksRefs_eq s t hm]
  | none =>
    rw [registerHookRef_state_none hm, registerHookRef_snd_none hm]
    refine ⟨mapGet_append_self _ hm, ?_, by simp⟩
    rw [getD_append_len, getHooksRefs_none s t hm]
    rfl

/-! ## Freshness of arrays created by the loader
(a reload never reuses an array that an existing disposal closure holds) -/

theorem registerHookRef_arrays_mono (s : HS) (t : HookType) (r : Ref) :
    s.arrays.length ≤ (registerHookRef s t r).1.arrays.length := by
  cases hm : mapGet s.map t with
  | some a => rw [registerHookRef_state_some hm]; simp
  | none => rw [registerHookRef_state_none hm]; simp

theorem registerHookRef_entries {s : HS} {t : HookType} {r : Ref} {p : HookType × Nat}
    (hp : p ∈ (registerHookRef s t r).1.map) : p ∈ s.map ∨ s.arrays.length ≤ p.2 := by
  cases hm : mapGet s.map t with
  | some a =>
    rw [registerHookRef_state_some hm] at hp
    exact Or.inl hp
  | none =>
    rw [registerHookRef_state_none hm] at hp
    rcases List.mem_append.mp hp with h | h
    · exact Or.inl h
    · simp only [List.mem_singleton] at h
      subst h
      exact Or.inr (Nat.le_refl _)

theorem registerParsed_arrays_mono (s : HS) (t : HookType) (v : JsonVal) :
    s.arrays.length ≤ (registerParsed s t v).arrays.length := by
  have h := registerHookRef_arrays_mono { s with cfgs := s.cfgs ++ [v] } t s.cfgs.length
  exact h

theorem registerParsed_entries {s : HS} {t : HookType} {v : JsonVal} {p : HookType × Nat}
    (hp : p ∈ (registerParsed s t v).map) : p ∈ s.map ∨ s.arrays.length ≤ p.2 := by
  have hp' : p ∈ (registerHookRef { s with cfgs := s.cfgs ++ [v] } t s.cfgs.length).1.map := hp
  have h := registerHookRef_entries (s := { s with cfgs := s.cfgs ++ [v] })
    (t := t) (r := s.cfgs.length) hp'
  exact h

theorem regConfigs_entries (t : HookType) (cs : List JsonVal) :
    ∀ s : HS, s.arrays.length ≤ (regConfigs t s cs).arrays.length ∧
      ∀ p ∈ (regConfigs t s cs).map, p ∈ s.map ∨ s.arrays.length ≤ p.2 := by
  induction cs with
  | nil => intro s; exact ⟨Nat.le_refl _, fun p hp => Or.inl hp⟩
  | cons c rest ih =>
    intro s
    by_cases hc : isObjectJV c = true
    · have hstep : regConfigs t s (c :: rest) = regConfigs t (registerParsed s t c) rest := by
        simp [regConfigs, hc]
      obtain ⟨hmono, hent⟩ := ih (registerParsed s t c)
      rw [hstep]
      constructor
      · exact Nat.le_trans (registerParsed_arrays_mono s t c) hmono
      · intro p hp
        rcases hent p hp with h | h
        · rcases registerParsed_entries h with h' | h'
          · exact Or.inl h'
          · exact Or.inr h'
        · exact Or.inr (Nat.le_trans (registerParsed_arrays_mono s t c) h)
    · have hc' : isObjectJV c = false := by simpa using hc
      have hstep : regConfigs t s (c :: rest) = regConfigs t s rest := by
        simp [regConfigs, hc']
      rw [hstep]
      exact ih s

theorem regFields_entries (fields : List (String × JsonVal)) :
    ∀ s : HS, s.arrays.length ≤ (regFields s fields).arrays.length ∧
      ∀ p ∈ (regFields s fields).map, p ∈ s.map ∨ s.arrays.length ≤ p.2 := by
  induction fields with
  | nil => intro s; exact ⟨Nat.le_refl _, fun p hp => Or.inl hp⟩
  | cons q rest ih =>
    intro s
    cases hq : HookType.fromString q.1 with
    | none =>
      have hstep : regFields s (q :: rest) = regFields s rest := by
        simp [regFields, hq]
      rw [hstep]
      exact ih s
    | some u =>
      have hstep : regFields s (q :: rest) = regFields (regConfigs u s (elemsOf q.2)) rest := by
        simp [regFields, hq]
      obtain ⟨hm1, he1⟩ := regConfigs_entries u (elemsOf q.2) s
      obtain ⟨hm2, he2⟩ := ih (regConfigs u s (elemsOf q.2))
      rw [hstep]
      constructor
      · exact Nat.le_trans hm1 hm2
      · intro p hp
        rcases he2 p hp with h | h
        · rcases he1 p h with h' | h'
          · exact Or.inl h'
          · exact Or.inr h'
        · exact Or.inr (Nat.le_trans hm1 h)

theorem loadHooksFromConfig_no_obj {s : HS} {config : JsonVal}
    (h : hasHooksObj config = false) : loadHooksFromConfig s config = s := by
  unfold loadHooksFromConfig
  unfold hasHooksObj at h
  cases hf : getField config "hooks" with
  | none => rfl
  | some v =>
    cases v with
    | obj fields => rw [hf] at h; simp at h
    | null => rfl
    | bool b => rfl
    | num n => rfl
    | str sv => rfl
    | arr es => rfl

theorem loadHooksFromConfig_fresh {s : HS} {config : JsonVal}
    (hcfg : hasHooksObj config = true) :
    ∀ p ∈ (loadHooksFromConfig s config).map, s.arrays.length ≤ p.2 := by
  unfold hasHooksObj at hcfg
  cases hf : getField config "hooks" with
  | none => rw [hf] at hcfg; simp at hcfg
  | some v =>
    cases v with
    | obj fields =>
      intro p hp
      have hstep : loadHooksFromConfig s config = regFields { s with map := [] } fields := by
        simp [loadHooksFromConfig, hf]
      rw [hstep] at hp
      obtain ⟨-, hent⟩ := regFields_entries fields { s with map := [] }
      rcases hent p hp with h | h
      · cases h
      · exact h
    | null => rw [hf] at hcfg; simp at hcfg
    | bool b => rw [hf] at hcfg; simp at hcfg
    | num n => rw [hf] at hcfg; simp at hcfg
    | str sv => rw [hf] at hcfg; simp at hcfg
    | arr es => rw [hf] at hcfg; simp at hcfg

theorem loadHooksFromConfig_arrays_mono (s : HS) (config : JsonVal) :
    s.arrays.length ≤ (loadHooksFromConfig s config).arrays.length := by
  by_cases h : hasHooksObj config = true
  · unfold hasHooksObj at h
    cases hf : getField config "hooks" with
    | none => rw [hf] at h; simp at h
    | some v =>
      cases v with
      | obj fields =>
        have hstep : loadHooksFromConfig s config = regFields { s with map := [] } fields := by
          simp [loadHooksFromConfig, hf]
        rw [hstep]
        exact (regFields_entries fields { s with map := [] }).1
      | null => rw [hf] at h; simp at h
      | bool b => rw [hf] at h; simp at h
      | num n => rw [hf] at h; simp at h
      | str sv => rw [hf] at h; simp at h
      | arr es => rw [hf] at h; simp at h
  · have h' : hasHooksObj config = false := by simpa using h
    rw [loadHooksFromConfig_no_obj h']

theorem loadWorkspaceHooks_stale (s : HS) (settings file : Option JsonVal)
    (hvalid : (settingsValid settings || fileValid file) = true) :
    ∀ p ∈ (loadWorkspaceHooks s settings file).map, s.arrays.length ≤ p.2 := by
  intro p hp
  cases settings with
  | none =>
    cases file with
    | none => simp [settingsValid, fileValid] at hvalid
    | some v =>
      have hfv : hasHooksObj v = true := by
        simpa [settingsValid, fileValid] using hvalid
      have hp' : p ∈ (loadHooksFromConfig s v).map := hp
      exact loadHooksFromConfig_fresh hfv p hp'
  | some c =>
    by_cases hg : (jsTruthy (some c) && isObjectJV c) = true
    · cases file with
      | none =>
        have hsv : settingsValid (some c) = true := by
          simpa [fileValid] using hvalid
        have hh : hasHooksObj c = true := by
          simp only [settingsValid] at hsv
          rw [Bool.and_eq_true] at hsv
          exact hsv.2
        have hp' : p ∈ (loadHooksFromConfig s c).map := by
          simpa only [loadWorkspaceHooks, hg, if_true] using hp
        exact loadHooksFromConfig_fresh hh p hp'
      | some v =>
        by_cases hfv : hasHooksObj v = true
        · have hp' : p ∈ (loadHooksFromConfig (loadHooksFromConfig s c) v).map := by
            simpa only [loadWorkspaceHooks, hg, if_true] using hp
          have h1 := loadHooksFromConfig_fresh hfv p hp'
          exact Nat.le_trans (loadHooksFromConfig_arrays_mono s c) h1
        · have hfv' : hasHooksObj v = false := by simpa using hfv
          have hsv : settingsValid (some c) = true := by
            have hfval : fileValid (some v) = false := by
              simpa [fileValid] using hfv'
            simpa [hfval] using hvalid
          have hh : hasHooksObj c = true := by
            simp only [settingsValid] at hsv
            rw [Bool.and_eq_true] at hsv
            exact hsv.2
          have hp' : p ∈ (loadHooksFromConfig s c).map := by
            simpa only [loadWorkspaceHooks, hg, if_true,
              loadHooksFromConfig_no_obj hfv'] using hp
          exact loadHooksFromConfig_fresh hh p hp'
    · have hg' : (jsTruthy (some c) && isObjectJV c) = false := by simpa using hg
      have hsvF : settingsValid (some c) = false := by
        simp [settingsValid, hg']
      cases file with
      | none => simp [hsvF, fileValid] at hvalid
      | some v =>
        have hfv : hasHooksObj v = true := by
          simpa [hsvF, fileValid] using hvalid
        have hp' : p ∈ (loadHooksFromConfig s v).map := by
          simpa only [loadWorkspaceHooks, hg', Bool.false_eq_true, if_false] using hp
        exact loadHooksFromConfig_fresh hfv p hp'

/-! ## The claims -/

theorem abortAfter_eq (c : JsonVal) (o : ExecOutcome) :
    abortAfter c o = ((!(translateOutcome o).success) && aofB c) := by
  cases o <;> simp [abortAfter, translateOutcome]

/-- C1: if the hook at 0-based position `i` (the claim's 1-indexed hook
`i+1`) produces a failing result while its configuration has a truthy
`abortOnFailure`, and no earlier hook triggered the abort condition, then
`executeHooks` returns exactly the results of hooks `0..i` (ending with the
failing one), publishes exactly one event per executed hook `0..i` and none
for the later hooks, and never starts executing the later hooks.  Failures
whose configuration lacks `abortOnFailure` may occur among the first `i`
hooks: they are recorded and the loop continues past them. -/
theorem claim_C1_abort_short_circuit (t : HookType) (ctx : HookContext)
    (o : Nat → ExecOutcome) (hooks : List JsonVal) (i : Nat)
    (hi : i < hooks.length)
    (hpre : ∀ j, j < i →
      ((!(translateOutcome (o j)).success) && aofB (hooks.getD j .null)) = false)
    (hfail : (translateOutcome (o i)).success = false)
    (haof : aofB (hooks.getD i .null) = true) :
    (executeHooks t ctx o hooks).1.length = i + 1 ∧
    (executeHooks t ctx o hooks).1[i]? = some (translateOutcome (o i)) ∧
    publishedEvents (executeHooks t ctx o hooks).2 =
      (List.range (i + 1)).map (fun j =>
        (j, (⟨t, hooks.getD j .null, translateOutcome (o j), ctx⟩ : HookExecutionEvent))) ∧
    execCalls (executeHooks t ctx o hooks).2 = List.range (i + 1) := by
  have habort : abortAfter (hooks.getD i .null) (o (0 + i)) = true := by
    rw [Nat.zero_add, abortAfter_eq, hfail, haof]
    rfl
  have hpre' : ∀ j, j < i → abortAfter (hooks.getD j .null) (o (0 + j)) = false := by
    intro j hj
    rw [Nat.zero_add, abortAfter_eq]
    exact hpre j hj
  have hlen := executeHooksGo_abort_len t ctx o hooks 0 i hi hpre' habort
  simp only [executeHooks]
  refine ⟨hlen, ?_, ?_, ?_⟩
  · have := executeHooksGo_results t ctx o hooks 0 i (by rw [hlen]; omega)
    simpa using this
  · have := executeHooksGo_published t ctx o hooks 0
    rw [hlen] at this
    simpa using this
  · have := executeHooksGo_execCalls t ctx o hooks 0
    rw [hlen] at this
    simpa using this

/-- Witness for C1: of two registered hooks the first fails with
`abortOnFailure: true`; only one result comes back and only hook 0 was
started. -/
theorem claim_C1_abort_short_circuit_witness :
    (executeHooks .PreCommit ⟨.PreCommit, none, none, .null⟩
      (fun _ => .ok ⟨1, "", "", false, 5⟩)
      [.obj [("abortOnFailure", .bool true)], .obj []]).1.length = 1 ∧
    execCalls (executeHooks .PreCommit ⟨.PreCommit, none, none, .null⟩
      (fun _ => .ok ⟨1, "", "", false, 5⟩)
      [.obj [("abortOnFailure", .bool true)], .obj []]).2 = [0] := by
  have h := claim_C1_abort_short_circuit .PreCommit ⟨.PreCommit, none, none, .null⟩
    (fun _ => .ok ⟨1, "", "", false, 5⟩)
    [.obj [("abortOnFailure", .bool true)], .obj []] 0 (by decide)
    (fun j hj => absurd hj (Nat.not_lt_zero j)) rfl (by decide)
  exact ⟨h.1, h.2.2.2⟩

/-- C5: during one `executeHooks` invocation every executed hook gives rise
to exactly two engine actions — its execution start and then one published
event carrying the hook type, that configuration, that hook's result and
the context — and the event of hook `j` sits at trace position `2j+1`,
before the execution start of hook `j+1` at position `2j+2`; the list of
published events is exactly one event per executed hook, in execution
order. -/
theorem claim_C5_one_event_per_hook (t : HookType) (ctx : HookContext)
    (o : Nat → ExecOutcome) (hooks : List JsonVal) :
    (executeHooks t ctx o hooks).2.length = 2 * (executeHooks t ctx o hooks).1.length ∧
    publishedEvents (executeHooks t ctx o hooks).2 =
      (List.range (executeHooks t ctx o hooks).1.length).map (fun j =>
        (j, (⟨t, hooks.getD j .null, translateOutcome (o j), ctx⟩ : HookExecutionEvent))) ∧
    ∀ j, j < (executeHooks t ctx o hooks).1.length →
      (executeHooks t ctx o hooks).2[2 * j]? =
        some (.exec j (hooks.getD j .null)) ∧
      (executeHooks t ctx o hooks).2[2 * j + 1]? =
        some (.publish j ⟨t, hooks.getD j .null, translateOutcome (o j), ctx⟩) := by
  simp only [executeHooks]
  refine ⟨executeHooksGo_trace_len t ctx o hooks 0, ?_, ?_⟩
  · have := executeHooksGo_published t ctx o hooks 0
    simpa using this
  · intro j hj
    have := executeHooksGo_trace_getElem t ctx o hooks 0 j hj
    simpa using this

/-- Witness for C5: two successful hooks; the trace has four actions and
position 3 is the single event of the second hook. -/
theorem claim_C5_one_event_per_hook_witness :
    (executeHooks .FileSave ⟨.FileSave, none, some "f.txt", .null⟩
      (fun _ => .ok ⟨0, "out", "", true, 2⟩) [.obj [], .obj []]).2.length = 4 ∧
    (executeHooks .FileSave ⟨.FileSave, none, some "f.txt", .null⟩
      (fun _ => .ok ⟨0, "out", "", true, 2⟩) [.obj [], .obj []]).2[3]? =
      some (.publish 1 ⟨.FileSave, .obj [], ⟨0, "out", "", true, 2⟩,
        ⟨.FileSave, none, some "f.txt", .null⟩⟩) := by
  have h := claim_C5_one_event_per_hook .FileSave ⟨.FileSave, none, some "f.txt", .null⟩
    (fun _ => .ok ⟨0, "out", "", true, 2⟩) [.obj [], .obj []]
  refine ⟨by rw [h.1]; rfl, ?_⟩
  have := (h.2.2 1 (by decide)).2
  simpa using this

/-- C6 (amended): a hook whose underlying execution throws does not make
`executeHooks` propagate the exception; the hook's entry in the returned
sequence is the error result with `success = false`, `exitCode = -1`,
`stderr` the thrown message — and `executionTime = 0`, which the catch
block hardcodes (the claim's "elapsed time up to the failure" is refuted
by the counterexample). -/
theorem claim_C6_throw_becomes_error_result (t : HookType) (ctx : HookContext)
    (o : Nat → ExecOutcome) (hooks : List JsonVal) (j : Nat) (msg : String) (e : Nat)
    (hj : j < (executeHooks t ctx o hooks).1.length)
    (ho : o j = .threw msg e) :
    (executeHooks t ctx o hooks).1[j]? =
      some (⟨-1, "", msg, false, 0⟩ : HookResult) := by
  simp only [executeHooks] at hj ⊢
  have := executeHooksGo_results t ctx o hooks 0 j hj
  rw [this, Nat.zero_add, ho]
  rfl

/-- Witness for C6 (amended): a throw with message "spawn ENOENT". -/
theorem claim_C6_throw_becomes_error_result_witness :
    (executeHooks .PrePush ⟨.PrePush, none, none, .null⟩
      (fun _ => .threw "spawn ENOENT" 3) [.obj []]).1[0]? =
      some (⟨-1, "", "spawn ENOENT", false, 0⟩ : HookResult) :=
  claim_C6_throw_becomes_error_result .PrePush ⟨.PrePush, none, none, .null⟩
    (fun _ => .threw "spawn ENOENT" 3) [.obj []] 0 "spawn ENOENT" 3 (by decide) rfl

/-- C6 counterexample: when the execution throws after 7 ms of elapsed
time, the recorded result carries `executionTime = 0`, not the elapsed 7
the claim requires. -/
theorem claim_C6_counterexample :
    ((executeHooks .PrePush ⟨.PrePush, none, none, .null⟩
      (fun _ => .threw "boom" 7) [.obj []]).1 =
      [(⟨-1, "", "boom", false, 0⟩ : HookResult)]) ∧
    ((executeHooks .PrePush ⟨.PrePush, none, none, .null⟩
      (fun _ => .threw "boom" 7) [.obj []]).1.getD 0
        (⟨0, "", "", true, 0⟩ : HookResult)).executionTime ≠ 7 := by
  exact ⟨rfl, by decide⟩

/-- C7: when the registry holds no hooks for the event type (no entry, or
an entry whose array is empty), `executeHooks` returns the empty result
sequence, performs no execution call and publishes no event. -/
theorem claim_C7_empty_registry_noop (s : HS) (t : HookType) (ctx : HookContext)
    (o : Nat → ExecOutcome) (h : hasHooks s t = false) :
    (executeHooksS s t ctx o).1 = [] ∧
    (executeHooksS s t ctx o).2 = [] ∧
    publishedEvents (executeHooksS s t ctx o).2 = [] ∧
    execCalls (executeHooksS s t ctx o).2 = [] := by
  have hrefs : getHooksRefs s t = [] := by
    unfold hasHooks at h
    cases hm : mapGet s.map t with
    | none => exact getHooksRefs_none s t hm
    | some a =>
      rw [hm] at h
      have hempty : (s.arrays.getD a []).isEmpty = true := by simpa using h
      rw [getHooksRefs_eq s t hm]
      exact List.isEmpty_iff.mp hempty
  have hvals : getHooksVals s t = [] := by
    rw [getHooksVals, hrefs]
    rfl
  have hmain : executeHooksS s t ctx o = ([], []) := by
    unfold executeHooksS
    rw [hvals]
    rfl
  rw [hmain]
  exact ⟨rfl, rfl, rfl, rfl⟩

/-- Witness for C7: the freshly constructed service has no hooks at all. -/
theorem claim_C7_empty_registry_noop_witness :
    (executeHooksS HS.empty .WorkspaceOpen ⟨.WorkspaceOpen, none, none, .null⟩
      (fun _ => .ok ⟨0, "", "", true, 1⟩)).1 = [] ∧
    (executeHooksS HS.empty .WorkspaceOpen ⟨.WorkspaceOpen, none, none, .null⟩
      (fun _ => .ok ⟨0, "", "", true, 1⟩)).2 = [] ∧
    publishedEvents (executeHooksS HS.empty .WorkspaceOpen ⟨.WorkspaceOpen, none, none, .null⟩
      (fun _ => .ok ⟨0, "", "", true, 1⟩)).2 = [] ∧
    execCalls (executeHooksS HS.empty .WorkspaceOpen ⟨.WorkspaceOpen, none, none, .null⟩
      (fun _ => .ok ⟨0, "", "", true, 1⟩)).2 = [] :=
  claim_C7_empty_registry_noop HS.empty .WorkspaceOpen
    ⟨.WorkspaceOpen, none, none, .null⟩ (fun _ => .ok ⟨0, "", "", true, 1⟩) rfl

/-- C2 counterexample: with the global settings contributing configuration
`{script: "a.sh"}` and the workspace file contributing `{script: "b.sh"}`
for `pre-commit`, the loaded registry holds only the workspace entry — not
the claimed concatenation — because `loadHooksFromConfig` clears the whole
registry before processing each source. -/
theorem claim_C2_counterexample :
    getHooksVals
      (loadWorkspaceHooks HS.empty
        (some (.obj [("hooks", .obj [("pre-commit", .arr [.obj [("script", .str "a.sh")]])])]))
        (some (.obj [("hooks", .obj [("pre-commit", .arr [.obj [("script", .str "b.sh")]])])])))
      .PreCommit = [.obj [("script", .str "b.sh")]] ∧
    getHooksVals
      (loadWorkspaceHooks HS.empty
        (some (.obj [("hooks", .obj [("pre-commit", .arr [.obj [("script", .str "a.sh")]])])]))
        (some (.obj [("hooks", .obj [("pre-commit", .arr [.obj [("script", .str "b.sh")]])])])))
      .PreCommit ≠
      [.obj [("script", .str "a.sh")], .obj [("script", .str "b.sh")]] := by
  refine ⟨rfl, fun hcontra => ?_⟩
  exact absurd (congrArg List.length hcontra) (by decide)

/-- C2 (amended): when the workspace hooks file parses to a value with a
`hooks` object, the registry after `loadWorkspaceHooks` holds, for every
event type, exactly the workspace-file entries: the second
`loadHooksFromConfig` call clears the registry, so the workspace source
REPLACES the global-settings entries instead of being appended to them. -/
theorem claim_C2_file_replaces_settings (s : HS) (settings : Option JsonVal) (v : JsonVal)
    (t : HookType) (hwf : wf s = true) (hv : hasHooksObj v = true) :
    getHooksVals (loadWorkspaceHooks s settings (some v)) t = parseHooksLists v t := by
  have hchar := (loadWorkspaceHooks_char s settings (some v) hwf).2 t
  have hfv : fileValid (some v) = true := by simpa [fileValid] using hv
  simpa [hfv] using hchar

/-- Witness for C2 (amended) at the concrete two-source input of the
counterexample. -/
theorem claim_C2_file_replaces_settings_witness :
    getHooksVals
      (loadWorkspaceHooks HS.empty
        (some (.obj [("hooks", .obj [("pre-commit", .arr [.obj [("script", .str "a.sh")]])])]))
        (some (.obj [("hooks", .obj [("pre-commit", .arr [.obj [("script", .str "b.sh")]])])])))
      .PreCommit =
    parseHooksLists
      (.obj [("hooks", .obj [("pre-commit", .arr [.obj [("script", .str "b.sh")]])])])
      .PreCommit :=
  claim_C2_file_replaces_settings HS.empty
    (some (.obj [("hooks", .obj [("pre-commit", .arr [.obj [("script", .str "a.sh")]])])]))
    (.obj [("hooks", .obj [("pre-commit", .arr [.obj [("script", .str "b.sh")]])])])
    .PreCommit rfl rfl

/-- C3 counterexample: a programmatically registered configuration
survives a reload in which neither source supplies a `hooks` object
(settings undefined, workspace file absent), contradicting the claim that
programmatic registrations never survive a reload. -/
theorem claim_C3_counterexample :
    getHooksVals
      (loadWorkspaceHooks
        (registerParsed HS.empty .PreCommit (.obj [("command", .str "echo")]))
        none none) .PreCommit = [.obj [("command", .str "echo")]] ∧
    ([.obj [("command", .str "echo")]] : List JsonVal) ≠ [] := by
  exact ⟨rfl, by simp⟩

/-- C3 (amended): after a reload the registry for every event type equals
exactly the parse of the LAST source that supplied a `hooks` object (the
workspace file wins over the settings); when neither source supplies one,
nothing is cleared and the prior content — including programmatic
registrations — survives unchanged. -/
theorem claim_C3_reload_replaces_registry (s : HS) (settings file : Option JsonVal)
    (t : HookType) (hwf : wf s = true) :
    getHooksVals (loadWorkspaceHooks s settings file) t =
      if fileValid file then parseHooksLists (file.getD .null) t
      else if settingsValid settings then parseHooksLists (settings.getD .null) t
      else getHooksVals s t :=
  (loadWorkspaceHooks_char s settings file hwf).2 t

/-- Witness for C3 (amended): with both sources empty the prior
programmatic registration is untouched. -/
theorem claim_C3_reload_replaces_registry_witness :
    getHooksVals
      (loadWorkspaceHooks
        (registerParsed HS.empty .PrePull (.obj [("command", .str "echo")])) none none)
      .PrePull =
    getHooksVals (registerParsed HS.empty .PrePull (.obj [("command", .str "echo")]))
      .PrePull := by
  have h := claim_C3_reload_replaces_registry
    (registerParsed HS.empty .PrePull (.obj [("command", .str "echo")])) none none .PrePull rfl
  simpa [fileValid, settingsValid] using h

/-- C4 counterexample: `registerHook` accepts a configuration carrying
BOTH `script` and `command`, and one carrying NEITHER, into the registry —
the claim says such configurations are rejected at registration time. -/
theorem claim_C4_counterexample :
    getHooksVals
      (registerParsed HS.empty .PreCommit
        (.obj [("script", .str "a.sh"), ("command", .str "b")])) .PreCommit =
      [.obj [("script", .str "a.sh"), ("command", .str "b")]] ∧
    getHooksVals
      (registerParsed HS.empty .PrePush (.obj [("timeout", .num 1000)])) .PrePush =
      [.obj [("timeout", .num 1000)]] :=
  ⟨rfl, rfl⟩

/-- C4 (amended): `registerHook` performs no validation whatsoever: every
configuration object — also one with both, or neither, of `script` and
`command` — is appended to the event type's list. -/
theorem claim_C4_no_registration_validation (s : HS) (t : HookType) (v : JsonVal)
    (hwf : wf s = true) :
    getHooksVals (registerParsed s t v) t = getHooksVals s t ++ [v] := by
  have h := getHooksVals_registerParsed s t t v hwf
  simpa using h

/-- Witness for C4 (amended): an ambiguous configuration (both fields) is
appended to an empty list. -/
theorem claim_C4_no_registration_validation_witness :
    getHooksVals
      (registerParsed HS.empty .FileSave
        (.obj [("script", .str "x"), ("command", .str "y")])) .FileSave =
      getHooksVals HS.empty .FileSave ++ [.obj [("script", .str "x"), ("command", .str "y")]] :=
  claim_C4_no_registration_validation HS.empty .FileSave
    (.obj [("script", .str "x"), ("command", .str "y")]) rfl

/-- C9: reload is idempotent on the observable registry: running
`loadWorkspaceHooks` twice with the same two sources leaves, for every
event type, the same configuration list as running it once. -/
theorem claim_C9_reload_idempotent (s : HS) (settings file : Option JsonVal)
    (t : HookType) (hwf : wf s = true) :
    getHooksVals (loadWorkspaceHooks (loadWorkspaceHooks s settings file) settings file) t =
      getHooksVals (loadWorkspaceHooks s settings file) t := by
  obtain ⟨hw1, hv1⟩ := loadWorkspaceHooks_char s settings file hwf
  obtain ⟨-, hv2⟩ :=
    loadWorkspaceHooks_char (loadWorkspaceHooks s settings file) settings file hw1
  rw [hv2 t]
  by_cases hf : fileValid file = true
  · rw [hv1 t]
    simp [hf]
  · have hf' : fileValid file = false := by simpa using hf
    by_cases hs : settingsValid settings = true
    · rw [hv1 t]
      simp [hf', hs]
    · have hs' : settingsValid settings = false := by simpa using hs
      simp [hf', hs']

/-- Witness for C9 at the concrete two-source input. -/
theorem claim_C9_reload_idempotent_witness :
    getHooksVals
      (loadWorkspaceHooks
        (loadWorkspaceHooks HS.empty
          (some (.obj [("hooks", .obj [("pre-commit", .arr [.obj [("script", .str "a.sh")]])])]))
          (some (.obj [("hooks", .obj [("pre-commit", .arr [.obj [("script", .str "b.sh")]])])])))
        (some (.obj [("hooks", .obj [("pre-commit", .arr [.obj [("script", .str "a.sh")]])])]))
        (some (.obj [("hooks", .obj [("pre-commit", .arr [.obj [("script", .str "b.sh")]])])])))
      .PreCommit =
    getHooksVals
      (loadWorkspaceHooks HS.empty
        (some (.obj [("hooks", .obj [("pre-commit", .arr [.obj [("script", .str "a.sh")]])])]))
        (some (.obj [("hooks", .obj [("pre-commit", .arr [.obj [("script", .str "b.sh")]])])])))
      .PreCommit :=
  claim_C9_reload_idempotent HS.empty
    (some (.obj [("hooks", .obj [("pre-commit", .arr [.obj [("script", .str "a.sh")]])])]))
    (some (.obj [("hooks", .obj [("pre-commit", .arr [.obj [("script", .str "b.sh")]])])]))
    .PreCommit rfl

theorem hasHooks_eq (s : HS) (t : HookType) {a : Nat} (h : mapGet s.map t = some a) :
    hasHooks s t = !(s.arrays.getD a []).isEmpty := by
  simp [hasHooks, h]

theorem registerHookRef_snd_cfg (s : HS) (t : HookType) (r : Ref) :
    (registerHookRef s t r).2.cfg = r := by
  cases hm : mapGet s.map t with
  | some a => rw [registerHookRef_snd_some hm]
  | none => rw [registerHookRef_snd_none hm]

/-- C8 (amended): after `registerHook` the event type has hooks; invoking
the returned handle removes one occurrence of exactly that configuration
reference (identity, not value equality) — the first occurrence in the
list; when that reference occurred nowhere else, the list is back to its
previous content, `hasHooks` is false iff nothing else remains, and a
second invocation of the same handle is a complete no-op.  (When the same
configuration object was registered more than once the second invocation
is NOT a no-op — see the counterexample.) -/
theorem claim_C8_register_dispose (s : HS) (t : HookType) (r : Ref) (hwf : wf s = true) :
    hasHooks (registerHookRef s t r).1 t = true ∧
    getHooksRefs (disposeHandle (registerHookRef s t r).1 (registerHookRef s t r).2) t =
      (getHooksRefs s t ++ [r]).erase r ∧
    (r ∉ getHooksRefs s t →
      getHooksRefs (disposeHandle (registerHookRef s t r).1 (registerHookRef s t r).2) t =
        getHooksRefs s t ∧
      (hasHooks (disposeHandle (registerHookRef s t r).1 (registerHookRef s t r).2) t = false
        ↔ getHooksRefs s t = []) ∧
      disposeHandle (disposeHandle (registerHookRef s t r).1 (registerHookRef s t r).2)
        (registerHookRef s t r).2 =
      disposeHandle (registerHookRef s t r).1 (registerHookRef s t r).2) := by
  obtain ⟨hmg, hgetD, hlt⟩ := registerHookRef_handle s t r hwf
  have hcfg : (registerHookRef s t r).2.cfg = r := registerHookRef_snd_cfg s t r
  have c1 : hasHooks (registerHookRef s t r).1 t = true := by
    rw [hasHooks_eq _ t hmg, hgetD]
    simp
  have c2 : getHooksRefs
      (disposeHandle (registerHookRef s t r).1 (registerHookRef s t r).2) t =
      (getHooksRefs s t ++ [r]).erase r := by
    have hm2 : mapGet
        (disposeHandle (registerHookRef s t r).1 (registerHookRef s t r).2).map t =
        some (registerHookRef s t r).2.arr := by
      rw [disposeHandle_map]
      exact hmg
    rw [getHooksRefs_eq _ t hm2, disposeHandle_eq]
    show ((registerHookRef s t r).1.arrays.set (registerHookRef s t r).2.arr
        (((registerHookRef s t r).1.arrays.getD (registerHookRef s t r).2.arr []).erase
          (registerHookRef s t r).2.cfg)).getD (registerHookRef s t r).2.arr [] =
      (getHooksRefs s t ++ [r]).erase r
    rw [hgetD, hcfg]
    exact getD_set_self _ _ _ _ hlt
  refine ⟨c1, c2, fun hnot => ?_⟩
  have herase : (getHooksRefs s t ++ [r]).erase r = getHooksRefs s t := by
    rw [List.erase_append_right _ hnot]
    simp
  have c3a : getHooksRefs
      (disposeHandle (registerHookRef s t r).1 (registerHookRef s t r).2) t =
      getHooksRefs s t := by
    rw [c2, herase]
  have hm2 : mapGet
      (disposeHandle (registerHookRef s t r).1 (registerHookRef s t r).2).map t =
      some (registerHookRef s t r).2.arr := by
    rw [disposeHandle_map]
    exact hmg
  have harr2 : (disposeHandle (registerHookRef s t r).1
      (registerHookRef s t r).2).arrays.getD (registerHookRef s t r).2.arr [] =
      getHooksRefs s t := by
    rw [← getHooksRefs_eq _ t hm2]
    exact c3a
  refine ⟨c3a, ?_, ?_⟩
  · rw [hasHooks_eq _ t hm2, harr2]
    simp [List.isEmpty_iff]
  · generalize hgen :
      disposeHandle (registerHookRef s t r).1 (registerHookRef s t r).2 = s2 at harr2 ⊢
    simp only [disposeHandle]
    rw [harr2, hcfg, findIdx_beq_of_not_mem hnot]
    simp

/-- C8 counterexample: register the SAME configuration object (heap
reference 0) twice for one event type, then invoke the first handle twice:
the first invocation leaves one occurrence, the second invocation removes
the remaining occurrence — the registry changes, so the second invocation
is not a no-op. -/
theorem claim_C8_counterexample :
    getHooksRefs
      (disposeHandle
        (registerHookRef (registerHookRef (⟨[.obj []], [], []⟩ : HS) .PreCommit 0).1
          .PreCommit 0).1
        (registerHookRef (⟨[.obj []], [], []⟩ : HS) .PreCommit 0).2) .PreCommit = [0] ∧
    getHooksRefs
      (disposeHandle
        (disposeHandle
          (registerHookRef (registerHookRef (⟨[.obj []], [], []⟩ : HS) .PreCommit 0).1
            .PreCommit 0).1
          (registerHookRef (⟨[.obj []], [], []⟩ : HS) .PreCommit 0).2)
        (registerHookRef (⟨[.obj []], [], []⟩ : HS) .PreCommit 0).2) .PreCommit = [] :=
  ⟨rfl, rfl⟩

/-- Witness for C8 (amended): one fresh registration in a state already
holding a different configuration reference for the same type. -/
theorem claim_C8_register_dispose_witness :
    hasHooks (registerHookRef (⟨[.obj [], .obj []], [[0]], [(.PreCommit, 0)]⟩ : HS)
      .PreCommit 1).1 .PreCommit = true ∧
    getHooksRefs
      (disposeHandle
        (registerHookRef (⟨[.obj [], .obj []], [[0]], [(.PreCommit, 0)]⟩ : HS) .PreCommit 1).1
        (registerHookRef (⟨[.obj [], .obj []], [[0]], [(.PreCommit, 0)]⟩ : HS) .PreCommit 1).2)
      .PreCommit = ([0] ++ [1]).erase 1 := by
  have h := claim_C8_register_dispose
    (⟨[.obj [], .obj []], [[0]], [(.PreCommit, 0)]⟩ : HS) .PreCommit 1 (by decide)
  exact ⟨h.1, h.2.1⟩

/-- C10: a disposal handle that outlived its registry entry is a harmless
no-op on the observable registry: (i) in any state whose map does not
reference the handle's captured array, invoking the handle changes no
event type's configuration list or `hasHooks` answer; (ii) this holds in
particular for a handle invoked after `clearHooks` of its event type; and
(iii) after a reload (`loadWorkspaceHooks`) that actually replaced the
registry from a source, since a reload only creates fresh arrays.  The
stale invocation neither errors (it is a total function) nor resurrects or
removes any current entry. -/
theorem claim_C10_stale_handle_noop (s : HS) (t : HookType) (r : Ref)
    (hwf : wf s = true) :
    (∀ h : Handle, (∀ p ∈ s.map, p.2 ≠ h.arr) →
      ∀ t', getHooksVals (disposeHandle s h) t' = getHooksVals s t' ∧
        hasHooks (disposeHandle s h) t' = hasHooks s t') ∧
    (∀ t', getHooksVals
        (disposeHandle (clearHooks (registerHookRef s t r).1 t)
          (registerHookRef s t r).2) t' =
        getHooksVals (clearHooks (registerHookRef s t r).1 t) t' ∧
      hasHooks
        (disposeHandle (clearHooks (registerHookRef s t r).1 t)
          (registerHookRef s t r).2) t' =
        hasHooks (clearHooks (registerHookRef s t r).1 t) t') ∧
    (∀ settings file, (settingsValid settings || fileValid file) = true →
      ∀ t', getHooksVals
          (disposeHandle (loadWorkspaceHooks (registerHookRef s t r).1 settings file)
            (registerHookRef s t r).2) t' =
          getHooksVals (loadWorkspaceHooks (registerHookRef s t r).1 settings file) t' ∧
        hasHooks
          (disposeHandle (loadWorkspaceHooks (registerHookRef s t r).1 settings file)
            (registerHookRef s t r).2) t' =
          hasHooks (loadWorkspaceHooks (registerHookRef s t r).1 settings file) t') := by
  obtain ⟨-, h2, h3, -⟩ := wf_iff.mp hwf
  refine ⟨?_, ?_, ?_⟩
  · intro h hstale t'
    obtain ⟨-, hv, hh⟩ := disposeHandle_frame s h hstale t'
    exact ⟨hv, hh⟩
  · intro t'
    have hstale : ∀ p ∈ (clearHooks (registerHookRef s t r).1 t).map,
        p.2 ≠ (registerHookRef s t r).2.arr := by
      intro p hp
      cases hm : mapGet s.map t with
      | some a =>
        rw [registerHookRef_snd_some hm]
        have hp' : p ∈ s.map.filter (fun q => !(q.1 == t)) := by
          have hmap : (clearHooks (registerHookRef s t r).1 t).map =
              s.map.filter (fun q => !(q.1 == t)) := by
            rw [show (clearHooks (registerHookRef s t r).1 t).map =
              (registerHookRef s t r).1.map.filter (fun q => !(q.1 == t)) from rfl,
              registerHookRef_state_some hm]
          rw [hmap] at hp
          exact hp
        obtain ⟨hpm, hpt⟩ := List.mem_filter.mp hp'
        intro he
        have hpeq := nodupB_map_inj (fun q => q.2) s.map h2 hpm (mapGet_mem hm) (by simpa using he)
        rw [hpeq] at hpt
        simp at hpt
      | none =>
        rw [registerHookRef_snd_none hm]
        have hp' : p ∈ (s.map ++ [(t, s.arrays.length)]).filter (fun q => !(q.1 == t)) := by
          have hmap : (clearHooks (registerHookRef s t r).1 t).map =
              (s.map ++ [(t, s.arrays.length)]).filter (fun q => !(q.1 == t)) := by
            rw [show (clearHooks (registerHookRef s t r).1 t).map =
              (registerHookRef s t r).1.map.filter (fun q => !(q.1 == t)) from rfl,
              registerHookRef_state_none hm]
          rw [hmap] at hp
          exact hp
        obtain ⟨hpm, hpt⟩ := List.mem_filter.mp hp'
        rcases List.mem_append.mp hpm with hin | hin
        · have := h3 p hin
          show ¬ p.2 = s.arrays.length
          omega
        · simp only [List.mem_singleton] at hin
          rw [hin] at hpt
          simp at hpt
    obtain ⟨-, hv, hh⟩ := disposeHandle_frame _ _ hstale t'
    exact ⟨hv, hh⟩
  · intro settings file hvalid t'
    have hfresh := loadWorkspaceHooks_stale (registerHookRef s t r).1 settings file hvalid
    have hlt := (registerHookRef_handle s t r hwf).2.2
    have hstale : ∀ p ∈ (loadWorkspaceHooks (registerHookRef s t r).1 settings file).map,
        p.2 ≠ (registerHookRef s t r).2.arr := by
      intro p hp
      have := hfresh p hp
      omega
    obtain ⟨-, hv, hh⟩ := disposeHandle_frame _ _ hstale t'
    exact ⟨hv, hh⟩

/-- Witness for C10: a handle registered on the fresh service, invoked
after `clearHooks` and after a reload from a workspace file. -/
theorem claim_C10_stale_handle_noop_witness :
    (getHooksVals
      (disposeHandle (clearHooks (registerHookRef HS.empty .PreCommit 0).1 .PreCommit)
        (registerHookRef HS.empty .PreCommit 0).2) .PreCommit =
    getHooksVals (clearHooks (registerHookRef HS.empty .PreCommit 0).1 .PreCommit)
      .PreCommit) ∧
    (getHooksVals
      (disposeHandle
        (loadWorkspaceHooks (registerHookRef HS.empty .PreCommit 0).1 none
          (some (.obj [("hooks", .obj [("pre-commit", .arr [.obj [("script", .str "b.sh")]])])])))
        (registerHookRef HS.empty .PreCommit 0).2) .PreCommit =
    getHooksVals
      (loadWorkspaceHooks (registerHookRef HS.empty .PreCommit 0).1 none
        (some (.obj [("hooks", .obj [("pre-commit", .arr [.obj [("script", .str "b.sh")]])])])))
      .PreCommit) := by
  have h := claim_C10_stale_handle_noop HS.empty .PreCommit 0 rfl
  refine ⟨(h.2.1 .PreCommit).1, ?_⟩
  exact (h.2.2 none
    (some (.obj [("hooks", .obj [("pre-commit", .arr [.obj [("script", .str "b.sh")]])])]))
    (by decide) .PreCommit).1
